import Mathlib

/-!
Verification of the gcundo operation log and cascading undo/redo engine.

The JavaScript source keeps every recorded mutation as one JSON object per
line of `logs/log.jsonl`.  Records are plain objects whose fields differ by
operation type; we embed them as a single structure with optional fields,
mirroring the dynamic shape of the JSON records.  The filesystem is embedded
as an association list from paths to file contents; `none` models a missing
file.  Fallible operations return `Except String`, mirroring thrown
exceptions, and an error result carries no state: in the source every throw
happens before (or instead of) the corresponding write.
-/

/-- One record of `logs/log.jsonl` (see `core/logger.js`).  Fields that a
given record shape omits are `none`.  Timestamps are ISO strings compared
through `new Date`; we embed them as naturals with the same order. -/
structure Operation where
  id : String
  timestamp : Nat
  type : String
  operation : Option String := none
  file : String := ""
  before : Option String := none
  after : Option String := none
  oldString : Option String := none
  newString : Option String := none
  undoState : Option String := none
  deriving Repr, DecidableEq, Inhabited

/-- JavaScript truthiness of an optional string field: `undefined`, `null`
and `""` are falsy. -/
def strFalsy : Option String → Bool
  | none => true
  | some s => s.isEmpty

/-- JavaScript string coercion of a possibly absent field
(`String(undefined) = "undefined"`), as performed by `String.prototype.replace`
when handed an undefined argument. -/
def jsStr : Option String → String
  | none => "undefined"
  | some s => s

/-- Split a character list at every occurrence of `sep` (the semantics of
JavaScript `split` with a one-character separator, and of `String.splitOn`
restricted to one-character separators, implemented so that it evaluates by
kernel reduction). -/
def splitOnChar (sep : Char) : List Char → List (List Char)
  | [] => [[]]
  | c :: cs =>
    if c = sep then [] :: splitOnChar sep cs
    else
      match splitOnChar sep cs with
      | [] => [[c]]
      | h :: t => (c :: h) :: t

/-- JavaScript `String.prototype.trim`: drop leading and trailing
whitespace. -/
def jsTrim (s : String) : String :=
  ⟨((s.data.dropWhile Char.isWhitespace).reverse.dropWhile
      Char.isWhitespace).reverse⟩

/-- The filesystem (and also the backup directory): an association list from
path to content.  `fsRead` returns `none` for a missing file. -/
abbrev FileSys := List (String × String)

def fsRead (fs : FileSys) (p : String) : Option String :=
  (fs.find? (fun e => e.1 == p)).map (·.2)

def fsWrite (fs : FileSys) (p : String) (c : String) : FileSys :=
  (p, c) :: fs.filter (fun e => e.1 ≠ p)

def fsRemove (fs : FileSys) (p : String) : FileSys :=
  fs.filter (fun e => e.1 ≠ p)

/-- `path.basename`: the last `/`-separated component. -/
def basename (p : String) : String :=
  ⟨(splitOnChar (Char.ofNat 47) p.data).getLastD p.data⟩

/-- Split a character list at the first occurrence of `pat`, returning the
part before the match and the part after it. -/
def splitFirst (pat : List Char) : List Char → Option (List Char × List Char)
  | [] => if pat = [] then some ([], []) else none
  | c :: cs =>
    if pat.isPrefixOf (c :: cs) then some ([], (c :: cs).drop pat.length)
    else (splitFirst pat cs).map (fun q => (c :: q.1, q.2))

/-- JavaScript `String.prototype.replace` with string arguments: replace the
first occurrence of `pat` only; if `pat` does not occur the string is
returned unchanged. -/
def replaceFirst (s pat rep : String) : String :=
  match splitFirst pat.data s.data with
  | none => s
  | some q => ⟨q.1 ++ rep.data ++ q.2⟩

/- ### core/sessions.js -/

/-- `getActiveOperations` (core/sessions.js): records whose `undoState` is
`'active'` or falsy (`!op.undoState` — backward compatibility). -/
def getActiveOperations (store : List Operation) : List Operation :=
  store.filter (fun op => op.undoState = some "active" ∨ strFalsy op.undoState)

/-- `getUndoneOperations` (core/sessions.js). -/
def getUndoneOperations (store : List Operation) : List Operation :=
  store.filter (fun op => op.undoState = some "undone")

/-- `getOperationById` (core/sessions.js): first record with the id. -/
def getOperationById (store : List Operation) (opId : String) : Option Operation :=
  store.find? (fun op => op.id == opId)

/-- Stable insertion for the ascending-timestamp sort used by
`getOperationsAfter` and the index resolutions (JavaScript
`sort((a, b) => new Date(a.timestamp) - new Date(b.timestamp))` is stable). -/
def insertTs (x : Operation) : List Operation → List Operation
  | [] => [x]
  | y :: ys => if y.timestamp < x.timestamp then y :: insertTs x ys else x :: y :: ys

/-- Stable sort by ascending timestamp. -/
def sortByTs : List Operation → List Operation
  | [] => []
  | x :: xs => insertTs x (sortByTs xs)

/-- `getOperationsAfter` (core/sessions.js): active-view records strictly
after the target's timestamp, ascending. -/
def getOperationsAfter (target : Operation) (store : List Operation) : List Operation :=
  sortByTs ((getActiveOperations store).filter
    (fun op => target.timestamp < op.timestamp))

/- ### core/logger.js -/

/-- `updateOperationUndoState` (core/logger.js): map over every stored line,
rewriting the `undoState` of each record whose id matches; the store file is
rewritten only when some record matched, and the boolean flag reports whether
one did. -/
def updateOperationUndoState (opId newState : String)
    (store : List Operation) : Bool × List Operation :=
  let updated := store.any (fun op => op.id == opId)
  (updated,
    if updated then
      store.map (fun op =>
        if op.id = opId then { op with undoState := some newState } else op)
    else store)

/- ### Enhanced undo/redo engine (core/undo.js second document, core/redo.js) -/

/-- The state threaded through the enhanced engine: the persisted operation
log, the working-tree filesystem, the backup directory, and the ordered list
of `updateOperationUndoState` writes the engine has issued (the observable
write order of the cascade). -/
structure EngState where
  store : List Operation
  fs : FileSys
  backups : FileSys
  writes : List String := []
  deriving Repr, DecidableEq

/-- `createBackup` (core/undo.js, enhanced document): if the file exists,
copy it to `backups/<basename>.<timestamp>.bak`; `now` is the
(punctuation-stripped) ISO timestamp taken from the clock. -/
def createBackup (now p : String) (fs bk : FileSys) : FileSys :=
  match fsRead fs p with
  | none => bk
  | some c => fsWrite bk (basename p ++ "." ++ now ++ ".bak") c

/-- The filesystem effect of one enhanced undo step (`undoFileEdit`,
`undoFileCreate`, `undoFileDelete`, `undoCommandExecution`,
`undoLegacyOperation` in core/undo.js).  Returns the new working tree and
backup directory, or the message of the exception thrown. -/
def applyUndo (now : String) (op : Operation) (fs bk : FileSys) :
    Except String (FileSys × FileSys) :=
  if op.type = "file_edit" then
    match fsRead fs op.file with
    | none => .error ("File not found: " ++ op.file)
    | some cur =>
      if op.operation = some "string_replace" then
        .ok (fsWrite fs op.file (replaceFirst cur (jsStr op.newString) (jsStr op.oldString)),
          createBackup now op.file fs bk)
      else
        if strFalsy op.before then
          .error ("No before content available for operation " ++ op.id)
        else
          .ok (fsWrite fs op.file (jsStr op.before), createBackup now op.file fs bk)
  else if op.type = "file_create" then
    match fsRead fs op.file with
    | some _ => .ok (fsRemove fs op.file, createBackup now op.file fs bk)
    | none => .ok (fs, bk)
  else if op.type = "file_delete" then
    if strFalsy op.before then
      .error ("No content available to restore deleted file: " ++ op.id)
    else .ok (fsWrite fs op.file (jsStr op.before), bk)
  else
    -- command_execution only warns; unknown types fall through
    -- `undoLegacyOperation`, whose guards test the same four type strings
    -- and therefore cannot fire here
    .ok (fs, bk)

/-- The filesystem effect of one enhanced redo step (`redoFileEdit`,
`redoFileCreate`, `redoFileDelete`, `redoCommandExecution`,
`redoLegacyOperation` in core/undo.js). -/
def applyRedo (now : String) (op : Operation) (fs bk : FileSys) :
    Except String (FileSys × FileSys) :=
  if op.type = "file_edit" then
    if op.operation = some "string_replace" then
      match fsRead fs op.file with
      | none => .error ("File not found: " ++ op.file)
      | some cur =>
        .ok (fsWrite fs op.file (replaceFirst cur (jsStr op.oldString) (jsStr op.newString)),
          createBackup now op.file fs bk)
    else
      if strFalsy op.after then
        .error ("No after content available for operation " ++ op.id)
      else .ok (fsWrite fs op.file (jsStr op.after), createBackup now op.file fs bk)
  else if op.type = "file_create" then
    if strFalsy op.after then
      .error ("No content available for file creation: " ++ op.id)
    else .ok (fsWrite fs op.file (jsStr op.after), bk)
  else if op.type = "file_delete" then
    match fsRead fs op.file with
    | some _ => .ok (fsRemove fs op.file, createBackup now op.file fs bk)
    | none => .ok (fs, bk)
  else .ok (fs, bk)

/-- `performUndo` (core/undo.js): apply the inverse effect, then mark the
operation undone in the store; a failed apply is rethrown wrapped, and in
that case the state update never happens. -/
def performUndo (now : String) (op : Operation) (st : EngState) : Except String EngState :=
  match applyUndo now op st.fs st.backups with
  | .error e => .error ("Failed to undo operation " ++ op.id ++ ": " ++ e)
  | .ok q =>
    .ok { store := (updateOperationUndoState op.id "undone" st.store).2,
          fs := q.1, backups := q.2, writes := st.writes ++ [op.id] }

/-- `performRedo` (core/undo.js). -/
def performRedo (now : String) (op : Operation) (st : EngState) : Except String EngState :=
  match applyRedo now op st.fs st.backups with
  | .error e => .error ("Failed to redo operation " ++ op.id ++ ": " ++ e)
  | .ok q =>
    .ok { store := (updateOperationUndoState op.id "active" st.store).2,
          fs := q.1, backups := q.2, writes := st.writes ++ [op.id] }

/-- The `for (const cascadingOp of cascadingOps.reverse())` loop of the
enhanced `undoOperation`: each snapshot whose `undoState` field is
`'active'` is undone; a step's exception propagates and aborts the loop. -/
def cascadeUndo (now : String) : List Operation → EngState → Except String EngState
  | [], st => .ok st
  | op :: rest, st =>
    if op.undoState = some "active" then
      match performUndo now op st with
      | .error e => .error e
      | .ok st1 => cascadeUndo now rest st1
    else cascadeUndo now rest st

/-- Enhanced `undoOperation(operationId)` (core/undo.js): resolve by id,
reject an already-undone target, undo the cascading set newest-first, then
the target, and report the target plus the cascading snapshots that were
active. -/
def undoOperation (now opId : String) (st : EngState) :
    Except String (EngState × Operation × List Operation) :=
  match getOperationById st.store opId with
  | none => .error ("Operation not found: " ++ opId)
  | some operation =>
    if operation.undoState = some "undone" then
      .error ("Operation " ++ opId ++ " is already undone")
    else
      let cascadingOps := (getOperationsAfter operation st.store).reverse
      match cascadeUndo now cascadingOps st with
      | .error e => .error e
      | .ok st1 =>
        match performUndo now operation st1 with
        | .error e => .error e
        | .ok st2 =>
          .ok (st2, operation,
            cascadingOps.filter (fun op => op.undoState = some "active"))

/-- An operation reference for core/redo.js: the JavaScript distinguishes an
id (a string starting with `op_`) from a numeric index. -/
inductive OpRef
  | byId (opId : String)
  | byIndex (i : Int)
  deriving Repr, DecidableEq

/-- The target-resolution half of `redoOperation` (core/redo.js): by id via
`getOperationById`, or by position in the chronologically sorted
undone-operations view. -/
def resolveRedoTarget : OpRef → List Operation → Except String Operation
  | .byId opId, store =>
    match getOperationById store opId with
    | none => .error ("Operation not found: " ++ opId)
    | some op => .ok op
  | .byIndex i, store =>
    let undoneOps := sortByTs (getUndoneOperations store)
    if 0 ≤ i ∧ i.toNat < undoneOps.length then
      .ok (undoneOps.getD i.toNat default)
    else
      .error ("Invalid operation index: " ++ toString (i + 1) ++
        ". Available: 1-" ++ toString undoneOps.length)

/-- `redoOperation` (core/redo.js): resolve the target, reject an
already-active one, and redo that single operation — the enhanced redo has
no cascade. -/
def redoOperation (now : String) (ref : OpRef) (st : EngState) :
    Except String (EngState × Operation) :=
  match resolveRedoTarget ref st.store with
  | .error e => .error e
  | .ok operation =>
    if operation.undoState = some "active" then
      .error ("Operation " ++ operation.id ++ " is already active")
    else
      match performRedo now operation st with
      | .error e => .error e
      | .ok st1 => .ok (st1, operation)

/- ### Legacy index-based engine (core/undo.js first document, the unnamed
redo counterpart) -/

/-- The outcome of a legacy cascade over a single-file log: the final file
content, the backup directory, the ordered backup-write events, and the
ordered list of operations the loop attempted. -/
structure LegacyRun where
  content : Option String
  backups : FileSys
  events : List (String × String)
  attempted : List Operation
  deriving Repr, DecidableEq

/-- One step of the legacy index-based undo loop.  `fs.outputFile` with an
undefined `before` throws, the loop catches and logs it, so the content is
unchanged; a `file_create` undo removes the file when present. -/
def legacyUndoStep (op : Operation) (c : Option String) : Option String :=
  if op.type = "file_edit" then
    match op.before with
    | some b => some b
    | none => c
  else if op.type = "file_create" then none
  else if op.type = "file_delete" then
    match op.before with
    | some b => some b
    | none => c
  else c

/-- One step of the legacy index-based redo loop (`op.after || ''` for a
`file_create`). -/
def legacyRedoStep (op : Operation) (c : Option String) : Option String :=
  if op.type = "file_edit" then
    match op.after with
    | some a => some a
    | none => c
  else if op.type = "file_create" then some (op.after.getD "")
  else if op.type = "file_delete" then none
  else c

/-- The shared shape of both legacy loops: for each operation in sequence,
back up the current file content (when the file exists) under
`<id><suffix>`, apply the step, and continue — a failing step is logged and
never aborts the loop. -/
def legacyCascade (suffix : String) (step : Operation → Option String → Option String) :
    List Operation → Option String → FileSys → List (String × String) →
    List Operation → LegacyRun
  | [], c, bk, ev, att => ⟨c, bk, ev, att⟩
  | op :: rest, c, bk, ev, att =>
    match c with
    | some cur =>
      legacyCascade suffix step rest (step op (some cur))
        (fsWrite bk (op.id ++ suffix) cur) (ev ++ [(op.id ++ suffix, cur)]) (att ++ [op])
    | none =>
      legacyCascade suffix step rest (step op none) bk ev (att ++ [op])

/-- Legacy `undoOperation(index)` (core/undo.js first document): after
validating the index, iterate from the newest operation down to index `k`
inclusive; an invalid index only prints an error. -/
def undoOperationIndex (ops : List Operation) (k : Nat) (c : Option String)
    (bk : FileSys) : LegacyRun :=
  if k < ops.length then
    legacyCascade "-undo.bak" legacyUndoStep ((ops.drop k).reverse) c bk [] []
  else ⟨c, bk, [], []⟩

/-- Legacy `redoOperation(index)` (unnamed redo document): iterate forward
from index `k` to the newest operation. -/
def redoOperationIndex (ops : List Operation) (k : Nat) (c : Option String)
    (bk : FileSys) : LegacyRun :=
  if k < ops.length then
    legacyCascade "-redo.bak" legacyRedoStep (ops.drop k) c bk [] []
  else ⟨c, bk, [], []⟩

/-- The backup trace the specification prescribes for a legacy cascade
(written from the spec's words, to be compared with the trace the source's
loop produces): for each processed operation in order, when the file
currently exists, exactly one snapshot of its current (pre-step) content
under `<operationId><suffix>`; nothing when the file is absent. -/
def specBackupTrace (sfx : String)
    (step : Operation → Option String → Option String) :
    List Operation → Option String → List (String × String)
  | [], _ => []
  | op :: rest, c =>
    match c with
    | some cur => (op.id ++ sfx, cur) :: specBackupTrace sfx step rest (step op (some cur))
    | none => specBackupTrace sfx step rest (step op none)

/- ### Recorded single-file histories -/

/-- The forward effect an operation records: the content the file had
immediately after the operation was originally applied. -/
def recApply (op : Operation) (c : Option String) : Option String :=
  if op.type = "file_create" then op.after
  else if op.type = "file_edit" then op.after
  else if op.type = "file_delete" then none
  else c

/-- A single recorded step is consistent with the file content `c` it was
applied to: a create starts from a missing file and stores the new content,
an edit stores the exact previous content in `before` and the new content in
`after`, a delete stores the exact previous content in `before`. -/
def recOk (c : Option String) (op : Operation) : Bool :=
  if op.type = "file_create" then c == none && op.after.isSome
  else if op.type = "file_edit" then op.before == c && c.isSome && op.after.isSome
  else if op.type = "file_delete" then op.before == c && c.isSome
  else false

/-- A log of operations faithfully recorded, in order, against a single file
whose content before the first operation was `c`. -/
def recordedLog : List Operation → Option String → Bool
  | [], _ => true
  | op :: rest, c => recOk c op && recordedLog rest (recApply op c)

/-- Replay the recorded forward effects. -/
def applyAll (ops : List Operation) (c : Option String) : Option String :=
  ops.foldl (fun c op => recApply op c) c

/-- The content the file had immediately after operation `k` was originally
applied (operations `0..k` replayed). -/
def contentAfterIndex (ops : List Operation) (c : Option String) (k : Nat) :
    Option String :=
  applyAll (ops.take (k + 1)) c

/- ### DiffEngine (core/diff-engine.js) -/

/-- A candidate operation descriptor emitted by `DiffEngine.analyzeChanges`.
The create/delete shapes carry the full content in `content`; edit shapes
carry `oldString`/`newString`.  The `meta` fields embed the nested
`metadata` object; confidence is embedded as an exact rational. -/
structure DiffOp where
  type : String
  filePath : String
  timestamp : String
  content : Option String := none
  oldString : Option String := none
  newString : Option String := none
  lineNumber : Option Nat := none
  metaLines : Option Nat := none
  metaChars : Option Nat := none
  metaContextBefore : Option (List String) := none
  metaContextAfter : Option (List String) := none
  metaContextLine : Option Nat := none
  metaChangeType : Option String := none
  metaConfidence : Option ℚ := none
  deriving Repr, DecidableEq

/-- A grouped edit candidate (`groupDiffsIntoEdits` element): a character
offset into the old content, the removed substring and the inserted one. -/
structure DiffEdit where
  position : Nat
  oldText : String
  newText : String
  deriving Repr, DecidableEq

/-- Longest shared leading run of two character lists. -/
def sharedStart : List Char → List Char → List Char
  | a :: as, b :: bs => if a = b then a :: sharedStart as bs else []
  | _, _ => []

/-- One run of the modelled edit script: emitted only when non-empty. -/
def diffChunk (k : Int) (l : List Char) : List (Int × List Char) :=
  if l = [] then [] else [(k, l)]

/-- What remains of the old content after the shared leading run. -/
def diffRestO (o n : List Char) : List Char := o.drop (sharedStart o n).length

/-- What remains of the new content after the shared leading run. -/
def diffRestN (o n : List Char) : List Char := n.drop (sharedStart o n).length

/-- The shared trailing run of the two remainders. -/
def diffSuf (o n : List Char) : List Char :=
  (sharedStart (diffRestO o n).reverse (diffRestN o n).reverse).reverse

/-- The deleted middle of the old content. -/
def diffMidO (o n : List Char) : List Char :=
  (diffRestO o n).take ((diffRestO o n).length - (diffSuf o n).length)

/-- The inserted middle of the new content. -/
def diffMidN (o n : List Char) : List Char :=
  (diffRestN o n).take ((diffRestN o n).length - (diffSuf o n).length)

/-- Modelled from the spec: the `fast-diff` npm dependency is outside this
repository.  Per §4.2 it computes "a character-level edit script
(insert/delete/equal runs) between old and new"; we model it as the edit
script that keeps the longest shared leading and trailing runs and replaces
the middle, using fast-diff's run encoding (0 equal, -1 delete, 1 insert)
and omitting empty runs. -/
def charDiffL (o n : List Char) : List (Int × List Char) :=
  diffChunk 0 (sharedStart o n) ++ diffChunk (-1) (diffMidO o n) ++
    diffChunk 1 (diffMidN o n) ++ diffChunk 0 (diffSuf o n)

/-- Modelled from the spec: string-level wrapper of `charDiffL`. -/
def charDiff (o n : String) : List (Int × String) :=
  (charDiffL o.data n.data).map (fun d => (d.1, ⟨d.2⟩))

/-- The accumulator loop of `groupDiffsIntoEdits`: an equal run flushes the
pending edit and advances the offset; delete runs extend `oldText` and
advance the offset; insert runs extend `newText`. -/
def groupGo : List (Int × String) → Nat → Option DiffEdit → List DiffEdit
  | [], _, cur => match cur with | some e => [e] | none => []
  | (k, text) :: rest, pos, cur =>
    if k = 0 then
      (match cur with | some e => [e] | none => []) ++
        groupGo rest (pos + text.length) none
    else
      let e := cur.getD ⟨pos, "", ""⟩
      if k = -1 then
        groupGo rest (pos + text.length) (some { e with oldText := e.oldText ++ text })
      else
        groupGo rest pos (some { e with newText := e.newText ++ text })

/-- `groupDiffsIntoEdits` (core/diff-engine.js). -/
def groupDiffsIntoEdits (diffs : List (Int × String)) : List DiffEdit :=
  groupGo diffs 0 none

/-- `isSignificantEdit` (core/diff-engine.js): both sides shorter than
`EDIT_THRESHOLD = 3` is insignificant, as is a pure-whitespace change. -/
def isSignificantEdit (e : DiffEdit) : Bool :=
  if e.oldText.length < 3 && e.newText.length < 3 then false
  else if jsTrim e.oldText = jsTrim e.newText then false
  else true

/-- `findLineNumber` (core/diff-engine.js): 1-based line of a character
offset, counting separators in the prefix. -/
def findLineNumber (content : String) (pos : Nat) : Nat :=
  (splitOnChar (Char.ofNat 10) (content.data.take pos)).length

/-- `getContextLines` (core/diff-engine.js), `MAX_CONTEXT_LINES = 5`. -/
def getContextLines (lines : List String) (lineNumber : Nat) :
    List String × List String :=
  let start := lineNumber - 1 - 5
  let stop := min lines.length (lineNumber + 5)
  ((lines.drop start).take (lineNumber - 1 - start),
    (lines.drop lineNumber).take (stop - lineNumber))

/-- Scan for an occurrence of `sub` anywhere in the character list. -/
def hasInfix (sub : List Char) : List Char → Bool
  | [] => sub.isEmpty
  | c :: cs => sub.isPrefixOf (c :: cs) || hasInfix sub cs

/-- JavaScript `String.prototype.includes`. -/
def containsSubstr (s sub : String) : Bool :=
  hasInfix sub.data s.data

/-- `categorizeChange` (core/diff-engine.js). -/
def categorizeChange (o n : String) : String :=
  if o.isEmpty then "ADDITION"
  else if n.isEmpty then "DELETION"
  else if containsSubstr o "function" || containsSubstr n "function" then "FUNCTION_CHANGE"
  else if containsSubstr o "import" || containsSubstr n "import" then "IMPORT_CHANGE"
  else if containsSubstr o "=" || containsSubstr n "=" then "ASSIGNMENT_CHANGE"
  else "TEXT_CHANGE"

/-- `calculateConfidence` (core/diff-engine.js), with the floating-point
arithmetic embedded exactly over the rationals. -/
def calculateConfidence (e : DiffEdit) : ℚ :=
  let changeSize := max e.oldText.length e.newText.length
  let c1 : ℚ := if 50 < changeSize then 8 / 10 + 1 / 10 else 8 / 10
  let complexity := max e.oldText.length e.newText.length -
    min e.oldText.length e.newText.length
  let c2 : ℚ := if (changeSize : ℚ) / 2 < (complexity : ℚ) then c1 - 2 / 10 else c1
  max (1 / 10) (min 1 c2)

/-- The single full-file-replace fallback record pushed when every candidate
was filtered out (`extractStringBasedEdits`, core/diff-engine.js). -/
def fullFileReplaceOp (now p o n : String) : DiffOp :=
  { type := "FILE_EDIT", filePath := p, timestamp := now,
    oldString := some o, newString := some n, lineNumber := some 1,
    metaChangeType := some "FULL_FILE_REPLACE", metaConfidence := some (7 / 10) }

/-- The record built for one significant edit (`extractStringBasedEdits`
loop body). -/
def significantEditOp (now p o : String) (e : DiffEdit) : DiffOp :=
  let oldLines := (splitOnChar (Char.ofNat 10) o.data).map (fun l => (⟨l⟩ : String))
  let ln := findLineNumber o e.position
  let ctx := getContextLines oldLines ln
  { type := "FILE_EDIT", filePath := p, timestamp := now,
    oldString := some e.oldText, newString := some e.newText,
    lineNumber := some ln,
    metaContextBefore := some ctx.1, metaContextAfter := some ctx.2,
    metaContextLine := some ln,
    metaChangeType := some (categorizeChange e.oldText e.newText),
    metaConfidence := some (calculateConfidence e) }

/-- `extractStringBasedEdits` (core/diff-engine.js). -/
def extractStringBasedEdits (now p o n : String) : List DiffOp :=
  let diffs := charDiff o n
  if diffs = [] then []
  else
    let ops := ((groupDiffsIntoEdits diffs).filter isSignificantEdit).map
      (significantEditOp now p o)
    if ops = [] then [fullFileReplaceOp now p o n] else ops

/-- `analyzeChanges` (core/diff-engine.js).  `now` is the clock reading the
source takes per record; content arguments use `none` for `null`, and the
leading guards use JavaScript truthiness, so empty content behaves like
absent content.  The surrounding try/catch turns the `null.split` crash of
the null-beside-empty-string corner into an empty result. -/
def analyzeChanges (now p : String) (o n : Option String) : List DiffOp :=
  if strFalsy o && !strFalsy n then
    [{ type := "FILE_CREATE", filePath := p, timestamp := now,
       content := some (n.getD ""),
       metaLines := some (splitOnChar (Char.ofNat 10) (n.getD "").data).length,
       metaChars := some (n.getD "").length }]
  else if !strFalsy o && strFalsy n then
    [{ type := "FILE_DELETE", filePath := p, timestamp := now,
       content := some (o.getD ""),
       metaLines := some (splitOnChar (Char.ofNat 10) (o.getD "").data).length,
       metaChars := some (o.getD "").length }]
  else if o = n then []
  else
    match o, n with
    | some os, some ns => extractStringBasedEdits now p os ns
    | _, _ => []

/- ### Derived forms used by the statements and proofs -/

/-- Set a record's `undoState`. -/
def setUndoState (u : String) (op : Operation) : Operation :=
  { op with undoState := some u }

/-- Rewrite the `undoState` of every record whose id is in `ids` — the net
store effect of a sequence of `updateOperationUndoState` calls. -/
def updMask (u : String) (ids : List String) (store : List Operation) : List Operation :=
  store.map (fun op => if op.id ∈ ids then setUndoState u op else op)

/- ### Concrete fixtures for witnesses and counterexamples -/

/-- A recorded single-file history: a create followed by an edit. -/
def c1create : Operation :=
  { id := "op_1", timestamp := 1, type := "file_create", after := some "a" }

def c1edit : Operation :=
  { id := "op_2", timestamp := 2, type := "file_edit",
    before := some "a", after := some "b" }

def c2editA : Operation :=
  { id := "op_1", timestamp := 1, type := "file_edit",
    operation := some "full_content", file := "a.txt",
    before := some "old", after := some "new", undoState := some "active" }

def c2editB : Operation :=
  { id := "op_2", timestamp := 2, type := "file_edit",
    operation := some "full_content", file := "b.txt",
    before := some "u", after := some "v", undoState := some "active" }

def c2st : EngState :=
  { store := [c2editA, c2editB], fs := [("a.txt", "new"), ("b.txt", "v")], backups := [] }

/-- The state the enhanced undo of `op_1` produces from `c2st`. -/
def c2out : EngState :=
  { store := [setUndoState "undone" c2editA, setUndoState "undone" c2editB],
    fs := [("a.txt", "old"), ("b.txt", "u")],
    backups := [("a.txt.T.bak", "new"), ("b.txt.T.bak", "v")],
    writes := ["op_2", "op_1"] }

def c3editA : Operation :=
  { id := "op_1", timestamp := 1, type := "file_edit",
    operation := some "full_content", file := "a.txt",
    before := some "old", after := some "new", undoState := some "undone" }

def c3editB : Operation :=
  { id := "op_2", timestamp := 2, type := "file_edit",
    operation := some "full_content", file := "b.txt",
    before := some "u", after := some "v", undoState := some "undone" }

def c3st : EngState :=
  { store := [c3editA, c3editB], fs := [("a.txt", "old"), ("b.txt", "u")], backups := [] }

/-- The state `redoOperation` produces for `op_1` from `c3st`. -/
def c3out : EngState :=
  { store := [setUndoState "active" c3editA, c3editB],
    fs := [("a.txt", "new"), ("b.txt", "u")],
    backups := [("a.txt.T.bak", "old")],
    writes := ["op_1"] }

def c4target : Operation :=
  { id := "op_1", timestamp := 1, type := "file_edit",
    operation := some "full_content", file := "a.txt",
    before := some "old", after := some "new", undoState := some "active" }

def c4casc : Operation :=
  { id := "op_2", timestamp := 2, type := "file_edit",
    operation := some "full_content", file := "missing.txt",
    before := some "u", after := some "v", undoState := some "active" }

def c4st : EngState :=
  { store := [c4target, c4casc], fs := [("a.txt", "new")], backups := [] }

def c5undone : Operation :=
  { id := "op_1", timestamp := 1, type := "file_edit",
    operation := some "full_content", file := "f.txt",
    before := some "x", after := some "y", undoState := some "undone" }

def c5active : Operation :=
  { id := "op_2", timestamp := 1, type := "file_edit",
    operation := some "full_content", file := "f.txt",
    before := some "x", after := some "y", undoState := some "active" }

def c5stU : EngState := { store := [c5undone], fs := [("f.txt", "y")], backups := [] }

def c5stA : EngState := { store := [c5active], fs := [("f.txt", "y")], backups := [] }

def c8op1 : Operation :=
  { id := "op_1", timestamp := 1, type := "file_edit", undoState := some "active" }

def c8op2 : Operation :=
  { id := "op_2", timestamp := 2, type := "file_edit", undoState := some "active" }

def c9op : Operation :=
  { id := "op_1", timestamp := 1, type := "file_edit",
    operation := some "full_content", file := "d/f.txt",
    before := some "old", after := some "new", undoState := some "active" }

def c9st : EngState := { store := [c9op], fs := [("d/f.txt", "new")], backups := [] }

def c10target : Operation :=
  { id := "op_0", timestamp := 1, type := "file_edit", undoState := some "active" }

def c10legacy : Operation :=
  { id := "op_1", timestamp := 2, type := "file_edit", undoState := none }

def c10undone : Operation :=
  { id := "op_2", timestamp := 3, type := "file_edit", undoState := some "undone" }

/- ### Helper lemmas -/

theorem mem_insertTs {x y : Operation} {l : List Operation} :
    x ∈ insertTs y l ↔ x = y ∨ x ∈ l := by
  induction l with
  | nil => simp [insertTs]
  | cons z zs ih =>
    simp only [insertTs]
    by_cases h : z.timestamp < y.timestamp <;> simp [h, ih] <;> tauto

theorem mem_sortByTs {x : Operation} {l : List Operation} :
    x ∈ sortByTs l ↔ x ∈ l := by
  induction l with
  | nil => simp [sortByTs]
  | cons y ys ih => simp [sortByTs, mem_insertTs, ih]

theorem mem_cascadeFilter {target q : Operation} {store : List Operation} :
    q ∈ ((getOperationsAfter target store).reverse.filter
        (fun op => op.undoState = some "active")) ↔
      q ∈ store ∧ q.undoState = some "active" ∧ target.timestamp < q.timestamp := by
  simp only [List.mem_filter, List.mem_reverse, getOperationsAfter, mem_sortByTs,
    getActiveOperations, decide_eq_true_eq]
  constructor
  · rintro ⟨⟨⟨hmem, hview⟩, hts⟩, hact⟩
    exact ⟨hmem, hact, hts⟩
  · rintro ⟨hmem, hact, hts⟩
    exact ⟨⟨⟨hmem, Or.inl hact⟩, hts⟩, hact⟩

theorem legacyCascade_content (sfx : String)
    (step : Operation → Option String → Option String) :
    ∀ (l : List Operation) (c : Option String) (bk : FileSys)
      (ev : List (String × String)) (att : List Operation),
      (legacyCascade sfx step l c bk ev att).content =
        l.foldl (fun c op => step op c) c := by
  intro l
  induction l with
  | nil => intro c bk ev att; rfl
  | cons op rest ih =>
    intro c bk ev att
    cases c with
    | none => simpa [legacyCascade] using ih (step op none) _ _ _
    | some cur => simpa [legacyCascade] using ih (step op (some cur)) _ _ _

theorem legacyCascade_attempted (sfx : String)
    (step : Operation → Option String → Option String) :
    ∀ (l : List Operation) (c : Option String) (bk : FileSys)
      (ev : List (String × String)) (att : List Operation),
      (legacyCascade sfx step l c bk ev att).attempted = att ++ l := by
  intro l
  induction l with
  | nil => intro c bk ev att; simp [legacyCascade]
  | cons op rest ih =>
    intro c bk ev att
    cases c with
    | none => simp [legacyCascade, ih]
    | some cur => simp [legacyCascade, ih]

theorem legacyCascade_event_names (sfx : String)
    (step : Operation → Option String → Option String) :
    ∀ (l : List Operation) (c : Option String) (bk : FileSys)
      (ev : List (String × String)) (att : List Operation),
      List.Sublist ((legacyCascade sfx step l c bk ev att).events.map Prod.fst)
        ((ev.map Prod.fst) ++ l.map (fun op => op.id ++ sfx)) := by
  intro l
  induction l with
  | nil =>
    intro c bk ev att
    simp [legacyCascade]
  | cons op rest ih =>
    intro c bk ev att
    cases c with
    | none =>
      refine (ih (step op none) bk ev (att ++ [op])).trans ?_
      simp only [List.map_cons]
      exact List.Sublist.append_left (List.sublist_cons_self _ _) _
    | some cur =>
      have h := ih (step op (some cur)) (fsWrite bk (op.id ++ sfx) cur)
        (ev ++ [(op.id ++ sfx, cur)]) (att ++ [op])
      simpa [List.append_assoc] using h

theorem applyAll_append (l1 l2 : List Operation) (c : Option String) :
    applyAll (l1 ++ l2) c = applyAll l2 (applyAll l1 c) := by
  simp [applyAll, List.foldl_append]

theorem recordedLog_append (l1 l2 : List Operation) (c : Option String) :
    recordedLog (l1 ++ l2) c = (recordedLog l1 c && recordedLog l2 (applyAll l1 c)) := by
  induction l1 generalizing c with
  | nil => simp [recordedLog, applyAll]
  | cons op rest ih =>
    show (recOk c op && recordedLog (rest ++ l2) (recApply op c)) =
      ((recOk c op && recordedLog rest (recApply op c)) &&
        recordedLog l2 (applyAll rest (recApply op c)))
    rw [ih, Bool.and_assoc]

theorem legacyUndoStep_rewinds (c : Option String) (op : Operation)
    (h : recOk c op = true) : legacyUndoStep op (recApply op c) = c := by
  unfold recOk at h
  by_cases h1 : op.type = "file_create"
  · rw [if_pos h1] at h
    simp only [Bool.and_eq_true, beq_iff_eq] at h
    simp [legacyUndoStep, recApply, h1, h.1]
  · rw [if_neg h1] at h
    by_cases h2 : op.type = "file_edit"
    · rw [if_pos h2] at h
      simp only [Bool.and_eq_true, beq_iff_eq] at h
      obtain ⟨⟨hb, hc⟩, -⟩ := h
      obtain ⟨b, hcb⟩ := Option.isSome_iff_exists.mp hc
      rw [hcb] at hb
      simp [legacyUndoStep, recApply, h1, h2, hb, hcb]
    · rw [if_neg h2] at h
      by_cases h3 : op.type = "file_delete"
      · rw [if_pos h3] at h
        simp only [Bool.and_eq_true, beq_iff_eq] at h
        obtain ⟨hb, hc⟩ := h
        obtain ⟨b, hcb⟩ := Option.isSome_iff_exists.mp hc
        rw [hcb] at hb
        simp [legacyUndoStep, recApply, h1, h2, h3, hb, hcb]
      · rw [if_neg h3] at h
        exact absurd h (by simp)

theorem legacyRedoStep_replays (c : Option String) (op : Operation)
    (h : recOk c op = true) : legacyRedoStep op c = recApply op c := by
  unfold recOk at h
  by_cases h1 : op.type = "file_create"
  · rw [if_pos h1] at h
    simp only [Bool.and_eq_true, beq_iff_eq] at h
    obtain ⟨-, ha⟩ := h
    obtain ⟨a, ha2⟩ := Option.isSome_iff_exists.mp ha
    simp [legacyRedoStep, recApply, h1, ha2]
  · rw [if_neg h1] at h
    by_cases h2 : op.type = "file_edit"
    · rw [if_pos h2] at h
      simp only [Bool.and_eq_true, beq_iff_eq] at h
      obtain ⟨-, ha⟩ := h
      obtain ⟨a, ha2⟩ := Option.isSome_iff_exists.mp ha
      simp [legacyRedoStep, recApply, h1, h2, ha2]
    · rw [if_neg h2] at h
      by_cases h3 : op.type = "file_delete"
      · simp [legacyRedoStep, recApply, h1, h2, h3]
      · rw [if_neg h3] at h
        exact absurd h (by simp)

theorem legacy_undo_rewinds : ∀ (ops : List Operation) (c : Option String),
    recordedLog ops c = true →
    (ops.reverse).foldl (fun c op => legacyUndoStep op c) (applyAll ops c) = c := by
  intro ops
  induction ops with
  | nil => intro c _; rfl
  | cons op rest ih =>
    intro c h
    simp only [recordedLog, Bool.and_eq_true] at h
    obtain ⟨h1, h2⟩ := h
    have happ : applyAll (op :: rest) c = applyAll rest (recApply op c) := rfl
    rw [happ, List.reverse_cons, List.foldl_append, ih (recApply op c) h2]
    exact legacyUndoStep_rewinds c op h1

theorem legacy_redo_replays : ∀ (ops : List Operation) (c : Option String),
    recordedLog ops c = true →
    ops.foldl (fun c op => legacyRedoStep op c) c = applyAll ops c := by
  intro ops
  induction ops with
  | nil => intro c _; rfl
  | cons op rest ih =>
    intro c h
    simp only [recordedLog, Bool.and_eq_true] at h
    obtain ⟨h1, h2⟩ := h
    have hstep : legacyRedoStep op c = recApply op c := legacyRedoStep_replays c op h1
    have happ : applyAll (op :: rest) c = applyAll rest (recApply op c) := rfl
    calc (op :: rest).foldl (fun c op => legacyRedoStep op c) c
        = rest.foldl (fun c op => legacyRedoStep op c) (legacyRedoStep op c) := rfl
      _ = rest.foldl (fun c op => legacyRedoStep op c) (recApply op c) := by rw [hstep]
      _ = applyAll rest (recApply op c) := ih _ h2
      _ = applyAll (op :: rest) c := happ.symm

/- ### Claim C1 -/

/-- C1 (amended): for every single-file log faithfully recorded from initial
content `c0` and every index `k` in range, running the legacy index-based
cascading undo from `k` and then the legacy index-based cascading redo from
`k` leaves the file with the content it had immediately after the final
operation (index N-1) was originally applied — i.e. the roundtrip restores
the pre-undo content, because the redo re-applies every operation from `k`
through the end, not just operation `k`. -/
theorem C1_index_undo_redo_roundtrip (ops : List Operation) (k : Nat)
    (c0 : Option String) (bk1 bk2 : FileSys)
    (hrec : recordedLog ops c0 = true) (hk : k < ops.length) :
    (redoOperationIndex ops k
        (undoOperationIndex ops k (applyAll ops c0) bk1).content bk2).content =
      applyAll ops c0 := by
  have hsplit : ops = ops.take k ++ ops.drop k := (List.take_append_drop k ops).symm
  have hrec2 : recordedLog (ops.drop k) (applyAll (ops.take k) c0) = true := by
    conv at hrec => rw [hsplit]
    rw [recordedLog_append, Bool.and_eq_true] at hrec
    exact hrec.2
  have hA : applyAll ops c0 = applyAll (ops.drop k) (applyAll (ops.take k) c0) := by
    conv_lhs => rw [hsplit]
    exact applyAll_append _ _ _
  unfold undoOperationIndex redoOperationIndex
  rw [if_pos hk, if_pos hk, legacyCascade_content, legacyCascade_content, hA,
    legacy_undo_rewinds _ _ hrec2, legacy_redo_replays _ _ hrec2]

/-- C1 witness: the roundtrip theorem applied to the concrete two-operation
history create("a"); edit("a" to "b") at index 0. -/
theorem C1_index_undo_redo_roundtrip_witness :
    (redoOperationIndex [c1create, c1edit] 0
        (undoOperationIndex [c1create, c1edit] 0
          (applyAll [c1create, c1edit] none) []).content []).content =
      applyAll [c1create, c1edit] none :=
  C1_index_undo_redo_roundtrip [c1create, c1edit] 0 none [] []
    (by decide) (by decide)

/-- C1 counterexample: in the two-operation history create("a");
edit("a" to "b"), undoing from index 0 and then redoing from index 0 leaves
the file at "b" (the final content), not at "a", the content it had
immediately after operation 0 was originally applied — refuting the claim
as stated. -/
theorem C1_counterexample :
    recordedLog [c1create, c1edit] none = true ∧
    0 < ([c1create, c1edit] : List Operation).length ∧
    ¬ ((redoOperationIndex [c1create, c1edit] 0
          (undoOperationIndex [c1create, c1edit] 0
            (applyAll [c1create, c1edit] none) []).content []).content =
        contentAfterIndex [c1create, c1edit] none 0) := by
  decide

/- ### Store-update lemmas for the enhanced cascade -/

theorem upd_snd (opId u : String) (store : List Operation) :
    (updateOperationUndoState opId u store).2 =
      if store.any (fun op => op.id == opId) then
        store.map (fun op =>
          if op.id = opId then { op with undoState := some u } else op)
      else store := rfl

theorem upd_map_id (opId u : String) (store : List Operation) :
    ((updateOperationUndoState opId u store).2).map (fun op => op.id) =
      store.map (fun op => op.id) := by
  rw [upd_snd]
  split
  · rw [List.map_map]
    exact List.map_congr_left (fun op _ => by by_cases hid : op.id = opId <;> simp [hid])
  · rfl

theorem upd_any_id (opId u x : String) (store : List Operation) :
    ((updateOperationUndoState opId u store).2).any (fun op => op.id == x) =
      store.any (fun op => op.id == x) := by
  have h1 : ∀ (l : List Operation), l.any (fun op => op.id == x) =
      (l.map (fun op => op.id)).any (fun i => i == x) := by
    intro l
    induction l with
    | nil => rfl
    | cons a t ih => simp [ih]
  rw [h1, h1, upd_map_id]

theorem foldl_upd_eq_updMask (u : String) :
    ∀ (L : List Operation) (store : List Operation),
      (∀ op ∈ L, store.any (fun q => q.id == op.id) = true) →
      L.foldl (fun s op => (updateOperationUndoState op.id u s).2) store =
        updMask u (L.map (fun op => op.id)) store := by
  intro L
  induction L with
  | nil => intro store _; simp [updMask]
  | cons op rest ih =>
    intro store hpres
    have hop : store.any (fun q => q.id == op.id) = true := hpres op (by simp)
    have hrest : ∀ p ∈ rest,
        ((updateOperationUndoState op.id u store).2).any (fun q => q.id == p.id) = true := by
      intro p hp
      rw [upd_any_id]
      exact hpres p (by simp [hp])
    show rest.foldl (fun s op => (updateOperationUndoState op.id u s).2)
        ((updateOperationUndoState op.id u store).2) = _
    rw [ih _ hrest, upd_snd, if_pos hop]
    unfold updMask
    rw [List.map_map]
    refine List.map_congr_left ?_
    intro q _
    by_cases h1 : q.id = op.id <;>
      by_cases h2 : q.id ∈ rest.map (fun op => op.id) <;>
        simp [h1, h2, setUndoState, Function.comp]

theorem performUndo_ok {now : String} {op : Operation} {st st1 : EngState}
    (h : performUndo now op st = .ok st1) :
    st1.store = (updateOperationUndoState op.id "undone" st.store).2 ∧
    st1.writes = st.writes ++ [op.id] := by
  unfold performUndo at h
  cases happ : applyUndo now op st.fs st.backups with
  | error e => rw [happ] at h; exact absurd h (by simp)
  | ok q =>
    rw [happ] at h
    simp only [Except.ok.injEq] at h
    subst h
    exact ⟨rfl, rfl⟩

theorem cascadeUndo_ok {now : String} :
    ∀ {L : List Operation} {st st1 : EngState}, cascadeUndo now L st = .ok st1 →
      st1.store = (L.filter (fun op => op.undoState = some "active")).foldl
          (fun s op => (updateOperationUndoState op.id "undone" s).2) st.store ∧
      st1.writes = st.writes ++
        ((L.filter (fun op => op.undoState = some "active")).map (fun op => op.id)) := by
  intro L
  induction L with
  | nil =>
    intro st st1 h
    simp only [cascadeUndo, Except.ok.injEq] at h
    subst h
    simp
  | cons op rest ih =>
    intro st st1 h
    by_cases hact : op.undoState = some "active"
    · rw [cascadeUndo, if_pos hact] at h
      cases hp : performUndo now op st with
      | error e => rw [hp] at h; exact absurd h (by simp)
      | ok stm =>
        rw [hp] at h
        obtain ⟨hs, hw⟩ := ih h
        obtain ⟨hs2, hw2⟩ := performUndo_ok hp
        have hfc : (op :: rest).filter (fun op => op.undoState = some "active") =
            op :: rest.filter (fun op => op.undoState = some "active") :=
          List.filter_cons_of_pos (by simp [hact])
        constructor
        · rw [hfc, hs, hs2]
          rfl
        · rw [hfc, hw, hw2]
          simp
    · rw [cascadeUndo, if_neg hact] at h
      obtain ⟨hs, hw⟩ := ih h
      have hfc : (op :: rest).filter (fun op => op.undoState = some "active") =
          rest.filter (fun op => op.undoState = some "active") :=
        List.filter_cons_of_neg (by simp [hact])
      rw [hfc]
      exact ⟨hs, hw⟩

theorem getOperationById_mem {store : List Operation} {i : String} {t : Operation}
    (h : getOperationById store i = some t) : t ∈ store ∧ t.id = i := by
  unfold getOperationById at h
  exact ⟨List.mem_of_find?_eq_some h, by simpa using List.find?_some h⟩

/- ### Claim C2 -/

/-- C2: for every log with unique record ids and every ACTIVE target, a
successful enhanced `undoOperation` rewrites the store so that exactly the
records that were `'active'` with a timestamp strictly after the target's,
plus the target itself, become `'undone'` — every other record, in
particular every record with an earlier timestamp, is unchanged — and it
issues its per-record state writes for the cascading set newest-first,
then the target. -/
theorem C2_undo_cascade_exact (now opId : String) (st : EngState)
    (target : Operation) (st2 : EngState) (tgt : Operation) (casc : List Operation)
    (hnd : (st.store.map (fun op => op.id)).Nodup)
    (hfind : getOperationById st.store opId = some target)
    (hact : target.undoState = some "active")
    (hok : undoOperation now opId st = .ok (st2, tgt, casc)) :
    st2.store = st.store.map (fun op =>
      if op.id = target.id ∨
          (op.undoState = some "active" ∧ target.timestamp < op.timestamp)
        then setUndoState "undone" op else op) ∧
    st2.writes = st.writes ++
      (((getOperationsAfter target st.store).reverse.filter
          (fun op => op.undoState = some "active")).map (fun op => op.id)) ++
      [target.id] := by
  have htm := getOperationById_mem hfind
  unfold undoOperation at hok
  rw [hfind] at hok
  dsimp only at hok
  rw [if_neg (by simp [hact])] at hok
  cases hcas : cascadeUndo now ((getOperationsAfter target st.store).reverse) st with
  | error e => rw [hcas] at hok; exact absurd hok (by simp)
  | ok st1 =>
    rw [hcas] at hok
    dsimp only at hok
    cases hperf : performUndo now target st1 with
    | error e => rw [hperf] at hok; exact absurd hok (by simp)
    | ok stt =>
      rw [hperf] at hok
      dsimp only at hok
      simp only [Except.ok.injEq, Prod.mk.injEq] at hok
      obtain ⟨hst2, -⟩ := hok
      subst hst2
      obtain ⟨hs1, hw1⟩ := cascadeUndo_ok hcas
      obtain ⟨hs2, hw2⟩ := performUndo_ok hperf
      have hpres : ∀ p ∈ ((getOperationsAfter target st.store).reverse.filter
            (fun op => op.undoState = some "active")) ++ [target],
          st.store.any (fun q => q.id == p.id) = true := by
        intro p hp
        rcases List.mem_append.mp hp with hp | hp
        · have hpc := (mem_cascadeFilter).mp hp
          exact List.any_eq_true.mpr ⟨p, hpc.1, by simp⟩
        · have hpt : p = target := by simpa using hp
          subst hpt
          exact List.any_eq_true.mpr ⟨p, htm.1, by simp⟩
      have hfold : stt.store = updMask "undone"
          ((((getOperationsAfter target st.store).reverse.filter
              (fun op => op.undoState = some "active")) ++ [target]).map
            (fun op => op.id)) st.store := by
        rw [hs2, hs1, ← foldl_upd_eq_updMask "undone" _ st.store hpres,
          List.foldl_append]
        rfl
      constructor
      · rw [hfold]
        unfold updMask
        refine List.map_congr_left ?_
        intro op hmem
        have hiff : (op.id ∈ (((getOperationsAfter target st.store).reverse.filter
              (fun op => op.undoState = some "active")) ++ [target]).map
            (fun op => op.id)) ↔
            (op.id = target.id ∨ (op.undoState = some "active" ∧
              target.timestamp < op.timestamp)) := by
          constructor
          · intro hin
            simp only [List.map_append, List.mem_append, List.mem_map] at hin
            rcases hin with ⟨q, hq, hqid⟩ | hin
            · have hqc := (mem_cascadeFilter).mp hq
              have hqe : q = op := List.inj_on_of_nodup_map hnd hqc.1 hmem hqid
              subst hqe
              exact Or.inr ⟨hqc.2.1, hqc.2.2⟩
            · obtain ⟨a, ha, haid⟩ := hin
              have ha2 : a = target := by simpa using ha
              subst ha2
              exact Or.inl haid.symm
          · intro hc
            rcases hc with hc | hc
            · simp [hc]
            · have hopc : op ∈ ((getOperationsAfter target st.store).reverse.filter
                  (fun op => op.undoState = some "active")) :=
                (mem_cascadeFilter).mpr ⟨hmem, hc.1, hc.2⟩
              simp only [List.map_append, List.mem_append, List.mem_map]
              exact Or.inl ⟨op, hopc, rfl⟩
        by_cases h : op.id ∈ (((getOperationsAfter target st.store).reverse.filter
            (fun op => op.undoState = some "active")) ++ [target]).map (fun op => op.id)
        · rw [if_pos h, if_pos (hiff.mp h)]
        · rw [if_neg h, if_neg (fun hc => h (hiff.mpr hc))]
      · rw [hw2, hw1]

/-- C2 witness: the cascade theorem applied to a concrete two-operation
store with both records active. -/
theorem C2_undo_cascade_exact_witness :
    undoOperation "T" "op_1" c2st = .ok (c2out, c2editA, [c2editB]) ∧
    c2out.store = c2st.store.map (fun op =>
      if op.id = c2editA.id ∨
          (op.undoState = some "active" ∧ c2editA.timestamp < op.timestamp)
        then setUndoState "undone" op else op) ∧
    c2out.writes = c2st.writes ++
      (((getOperationsAfter c2editA c2st.store).reverse.filter
          (fun op => op.undoState = some "active")).map (fun op => op.id)) ++
      [c2editA.id] := by
  have hok : undoOperation "T" "op_1" c2st = .ok (c2out, c2editA, [c2editB]) := by rfl
  have h := C2_undo_cascade_exact "T" "op_1" c2st c2editA c2out c2editA [c2editB]
    (by decide) (by decide) (by decide) hok
  exact ⟨hok, h.1, h.2⟩

/- ### Claim C3 -/

theorem performRedo_ok {now : String} {op : Operation} {st st1 : EngState}
    (h : performRedo now op st = .ok st1) :
    st1.store = (updateOperationUndoState op.id "active" st.store).2 ∧
    (∃ q, applyRedo now op st.fs st.backups = .ok q ∧
      st1.fs = q.1 ∧ st1.backups = q.2) ∧
    st1.writes = st.writes ++ [op.id] := by
  unfold performRedo at h
  cases happ : applyRedo now op st.fs st.backups with
  | error e => rw [happ] at h; exact absurd h (by simp)
  | ok q =>
    rw [happ] at h
    simp only [Except.ok.injEq] at h
    subst h
    exact ⟨rfl, ⟨q, rfl, rfl, rfl⟩, rfl⟩

/-- C3 (amended): `redoOperation` on a resolved target that is not already
active applies the forward content of that single operation and marks it —
and it alone — ACTIVE: the enhanced redo has no cascade, so every other
record, including later UNDONE ones, keeps its state. -/
theorem C3_redo_single (now : String) (ref : OpRef) (st st1 : EngState)
    (target res : Operation)
    (hres : resolveRedoTarget ref st.store = .ok target)
    (hok : redoOperation now ref st = .ok (st1, res)) :
    res = target ∧
    st1.store = (updateOperationUndoState target.id "active" st.store).2 ∧
    (∃ q, applyRedo now target st.fs st.backups = .ok q ∧
      st1.fs = q.1 ∧ st1.backups = q.2) ∧
    st1.writes = st.writes ++ [target.id] ∧
    (∀ op ∈ st.store, op.id ≠ target.id → op ∈ st1.store) := by
  unfold redoOperation at hok
  rw [hres] at hok
  dsimp only at hok
  by_cases hact : target.undoState = some "active"
  · rw [if_pos hact] at hok
    exact absurd hok (by simp)
  · rw [if_neg hact] at hok
    cases hp : performRedo now target st with
    | error e => rw [hp] at hok; exact absurd hok (by simp)
    | ok stm =>
      rw [hp] at hok
      simp only [Except.ok.injEq, Prod.mk.injEq] at hok
      obtain ⟨h1, h2⟩ := hok
      subst h1
      obtain ⟨hs, hfs, hw⟩ := performRedo_ok hp
      refine ⟨h2.symm, hs, hfs, hw, ?_⟩
      intro op hmem hne
      rw [hs, upd_snd]
      split
      · exact List.mem_map.mpr ⟨op, hmem, by rw [if_neg hne]⟩
      · exact hmem

/-- C3 witness: the single-operation redo theorem applied to the concrete
two-undone-operation store. -/
theorem C3_redo_single_witness :
    c3out.store = (updateOperationUndoState c3editA.id "active" c3st.store).2 ∧
    c3out.writes = c3st.writes ++ [c3editA.id] :=
  ⟨(C3_redo_single "T" (.byId "op_1") c3st c3out c3editA c3editA rfl rfl).2.1,
    (C3_redo_single "T" (.byId "op_1") c3st c3out c3editA c3editA rfl rfl).2.2.2.1⟩

/-- C3 counterexample: in a store with two UNDONE edits, redoing the earlier
one (`op_1`) succeeds but leaves the later one (`op_2`, timestamp at or
after the target's) still UNDONE, and the later operation's forward content
is not applied to its file — refuting the claim that Redo applies the
forward content of every UNDONE operation at or after the target's timestamp
and marks each of them ACTIVE. -/
theorem C3_counterexample :
    redoOperation "T" (.byId "op_1") c3st = .ok (c3out, c3editA) ∧
    c3editB ∈ c3st.store ∧ c3editB.undoState = some "undone" ∧
    c3editA.timestamp ≤ c3editB.timestamp ∧
    getOperationById c3out.store "op_2" = some c3editB ∧
    fsRead c3out.fs c3editB.file ≠ some (jsStr c3editB.after) :=
  ⟨rfl, by decide, by decide, by decide, by decide, by decide⟩

/- ### Claim C4 -/

/-- C4 (amended): in the legacy index-based cascades every step from the
chosen index onward is attempted regardless of per-step outcomes (failures
are caught, logged and skipped inside the loop), but in the enhanced
timestamp-based cascade a failing step's error propagates and aborts the
remainder of the cascade. -/
theorem C4_cascade_error_policy (ops : List Operation) (k : Nat)
    (c : Option String) (bk : FileSys) (hk : k < ops.length) :
    (undoOperationIndex ops k c bk).attempted = (ops.drop k).reverse ∧
    (redoOperationIndex ops k c bk).attempted = ops.drop k ∧
    (∀ (now : String) (op : Operation) (rest : List Operation) (st : EngState)
        (e : String), op.undoState = some "active" →
      performUndo now op st = .error e →
      cascadeUndo now (op :: rest) st = .error e) := by
  refine ⟨?_, ?_, ?_⟩
  · unfold undoOperationIndex
    rw [if_pos hk, legacyCascade_attempted]
    rfl
  · unfold redoOperationIndex
    rw [if_pos hk, legacyCascade_attempted]
    rfl
  · intro now op rest st e hact hp
    simp [cascadeUndo, hact, hp]

/-- C4 witness: the policy theorem applied to a concrete two-operation log
and to a concrete failing enhanced step (a file-edit undo whose file is
missing). -/
theorem C4_cascade_error_policy_witness :
    (undoOperationIndex [c4target, c4casc] 0 (some "x") []).attempted =
      (([c4target, c4casc] : List Operation).drop 0).reverse ∧
    cascadeUndo "T" [c4casc] c4st =
      .error "Failed to undo operation op_2: File not found: missing.txt" := by
  have h := C4_cascade_error_policy [c4target, c4casc] 0 (some "x") [] (by decide)
  exact ⟨h.1, h.2.2 "T" c4casc [] c4st
    "Failed to undo operation op_2: File not found: missing.txt" (by decide) (by rfl)⟩

/-- C4 counterexample: in the enhanced engine, undoing `op_1` with an active
cascading operation `op_2` whose file is missing fails the `op_2` step and
the whole call returns that error — the failure is propagated, not logged,
and the remaining step (the target `op_1` itself) is never attempted —
refuting the claim for the enhanced cascade. -/
theorem C4_counterexample :
    undoOperation "T" "op_1" c4st =
      .error "Failed to undo operation op_2: File not found: missing.txt" ∧
    getOperationById c4st.store "op_1" = some c4target ∧
    c4target.undoState = some "active" ∧ c4casc ∈ c4st.store :=
  ⟨rfl, by decide, by decide, by decide⟩

/- ### Claim C5 -/

/-- C5: the enhanced undo of an already-UNDONE target and the enhanced redo
of an already-ACTIVE target fail with the already-in-state error.  Both
checks precede every filesystem action and every state update, which the
embedding expresses by the `.error` result carrying no new state: the caller
keeps the entire prior store and filesystem. -/
theorem C5_already_in_state (now opId : String) (st : EngState) (op : Operation)
    (hfind : getOperationById st.store opId = some op) :
    (op.undoState = some "undone" →
      undoOperation now opId st =
        .error ("Operation " ++ opId ++ " is already undone")) ∧
    (op.undoState = some "active" →
      redoOperation now (.byId opId) st =
        .error ("Operation " ++ op.id ++ " is already active")) := by
  constructor
  · intro h
    unfold undoOperation
    rw [hfind]
    dsimp only
    rw [if_pos h]
  · intro h
    unfold redoOperation resolveRedoTarget
    dsimp only
    rw [hfind]
    dsimp only
    rw [if_pos h]

/-- C5 witness: the already-in-state theorem applied to a concrete undone
record (second undo fails) and a concrete active record (redo fails). -/
theorem C5_already_in_state_witness :
    undoOperation "T" "op_1" c5stU = .error "Operation op_1 is already undone" ∧
    redoOperation "T" (.byId "op_2") c5stA =
      .error "Operation op_2 is already active" :=
  ⟨(C5_already_in_state "T" "op_1" c5stU c5undone (by decide)).1 (by decide),
    (C5_already_in_state "T" "op_2" c5stA c5active (by decide)).2 (by decide)⟩

/- ### Claim C6 -/

/-- C6: `DiffEngine.analyzeChanges(path, null, "x")` yields exactly one
create-type record whose full forward content payload (the `content` field,
which the logger stores as `after`) is "x"; `analyzeChanges(path, "x", null)`
yields exactly one delete-type record whose full prior content payload is
"x"; `analyzeChanges(path, "x", "x")` yields the empty list. -/
theorem C6_diff_base_cases (now p : String) :
    analyzeChanges now p none (some "x") =
      [{ type := "FILE_CREATE", filePath := p, timestamp := now,
         content := some "x", metaLines := some 1, metaChars := some 1 }] ∧
    analyzeChanges now p (some "x") none =
      [{ type := "FILE_DELETE", filePath := p, timestamp := now,
         content := some "x", metaLines := some 1, metaChars := some 1 }] ∧
    analyzeChanges now p (some "x") (some "x") = [] :=
  ⟨rfl, rfl, rfl⟩

/- ### Claim C7 -/

theorem diffChunk_eq_nil {k : Int} {l : List Char} (h : diffChunk k l = []) :
    l = [] := by
  unfold diffChunk at h
  by_cases hc : l = []
  · exact hc
  · rw [if_neg hc] at h
    exact absurd h (by simp)

theorem charDiffL_eq_nil {o n : List Char} (h : charDiffL o n = []) : o = n := by
  unfold charDiffL at h
  rw [List.append_eq_nil, List.append_eq_nil, List.append_eq_nil] at h
  obtain ⟨⟨⟨h1, h2⟩, h3⟩, h4⟩ := h
  have hp : sharedStart o n = [] := diffChunk_eq_nil h1
  have hmo : diffMidO o n = [] := diffChunk_eq_nil h2
  have hmn : diffMidN o n = [] := diffChunk_eq_nil h3
  have hsf : diffSuf o n = [] := diffChunk_eq_nil h4
  have hro : diffRestO o n = [] := by
    unfold diffMidO at hmo
    rw [hsf] at hmo
    simpa [List.take_length] using hmo
  have hrn : diffRestN o n = [] := by
    unfold diffMidN at hmn
    rw [hsf] at hmn
    simpa [List.take_length] using hmn
  have ho : o = [] := by
    unfold diffRestO at hro
    rw [hp] at hro
    simpa using hro
  have hn : n = [] := by
    unfold diffRestN at hrn
    rw [hp] at hrn
    simpa using hrn
  rw [ho, hn]

theorem charDiff_ne_nil {o n : String} (h : o ≠ n) : charDiff o n ≠ [] := by
  intro hnil
  apply h
  apply String.ext
  unfold charDiff at hnil
  rw [List.map_eq_nil_iff] at hnil
  exact charDiffL_eq_nil hnil

/-- C7: for truthy (non-empty, hence non-null) unequal old and new contents,
`analyzeChanges` never returns the empty list, and whenever the significance
filter discards every grouped candidate the result is exactly the single
full-file-replace FileEdit record covering the entire file, with its
confidence fixed at the conservative constant 7/10. -/
theorem C7_full_replace_fallback (now p o n : String) (ho : o ≠ "")
    (hn : n ≠ "") (hne : o ≠ n) :
    analyzeChanges now p (some o) (some n) ≠ [] ∧
    (((groupDiffsIntoEdits (charDiff o n)).filter isSignificantEdit) = [] →
      analyzeChanges now p (some o) (some n) = [fullFileReplaceOp now p o n]) := by
  have hfo : strFalsy (some o) = false := by
    rw [strFalsy]
    rcases hb : o.isEmpty with _ | _
    · rfl
    · exact absurd ((String.isEmpty_iff o).mp hb) ho
  have hfn : strFalsy (some n) = false := by
    rw [strFalsy]
    rcases hb : n.isEmpty with _ | _
    · rfl
    · exact absurd ((String.isEmpty_iff n).mp hb) hn
  have hred : analyzeChanges now p (some o) (some n) =
      extractStringBasedEdits now p o n := by
    unfold analyzeChanges
    rw [hfo, hfn]
    simp only [Bool.false_and, Bool.and_false, Bool.false_eq_true, if_false]
    rw [if_neg (by simpa using hne)]
  have hd := charDiff_ne_nil hne
  rw [hred]
  unfold extractStringBasedEdits
  rw [if_neg hd]
  dsimp only
  by_cases hflt : (groupDiffsIntoEdits (charDiff o n)).filter isSignificantEdit = []
  · rw [hflt]
    simp
  · have hmap : (((groupDiffsIntoEdits (charDiff o n)).filter
        isSignificantEdit).map (significantEditOp now p o)) ≠ [] := by
      simpa [List.map_eq_nil_iff] using hflt
    rw [if_neg hmap]
    exact ⟨hmap, fun hc => absurd hc hflt⟩

/-- C7 witness: the fallback theorem applied to the concrete pair
("ab", "ba"), whose only grouped candidate is below the significance
threshold, so the result is exactly the full-file-replace record. -/
theorem C7_full_replace_fallback_witness :
    analyzeChanges "t" "f" (some "ab") (some "ba") ≠ [] ∧
    analyzeChanges "t" "f" (some "ab") (some "ba") =
      [fullFileReplaceOp "t" "f" "ab" "ba"] := by
  have h := C7_full_replace_fallback "t" "f" "ab" "ba" (by decide) (by decide)
    (by decide)
  exact ⟨h.1, h.2 (by decide)⟩

/- ### Claim C8 -/

theorem filter_id_length_one :
    ∀ {store : List Operation} {opId : String},
      (store.map (fun op => op.id)).Nodup → ∀ {op : Operation}, op ∈ store →
      op.id = opId → (store.filter (fun q => q.id = opId)).length = 1 := by
  intro store
  induction store with
  | nil =>
    intro opId _ op hmem
    exact absurd hmem (List.not_mem_nil op)
  | cons q rest ih =>
    intro opId hnd op hmem hid
    simp only [List.map_cons, List.nodup_cons] at hnd
    obtain ⟨hqni, hndr⟩ := hnd
    by_cases hq : q.id = opId
    · rw [List.filter_cons_of_pos (by simp [hq])]
      have hnil : rest.filter (fun r => decide (r.id = opId)) = [] := by
        rw [List.filter_eq_nil_iff]
        intro r hr
        simp only [decide_eq_true_eq]
        intro hrid
        have : q.id ∈ rest.map (fun op => op.id) := by
          rw [hq, ← hrid]
          exact List.mem_map_of_mem _ hr
        exact hqni this
      rw [hnil]
      rfl
    · have hop : op ∈ rest := by
        rcases List.mem_cons.mp hmem with hh | hh
        · exact absurd (hh ▸ hid) hq
        · exact hh
      rw [List.filter_cons_of_neg (by simp [hq])]
      exact ih hndr hop hid

/-- C8: on a store with unique record ids, `updateOperationUndoState`
rewrites the full store with exactly the one matching record's `undoState`
changed — there is exactly one matching record and every other record is
mapped to itself — and when no record carries the id it signals not-found by
returning `false` and leaving the store exactly as it was (no rewrite is
performed). -/
theorem C8_updateState_exact (opId newState : String) (store : List Operation)
    (hnd : (store.map (fun op => op.id)).Nodup) :
    ((∀ op ∈ store, op.id ≠ opId) →
      updateOperationUndoState opId newState store = (false, store)) ∧
    (∀ op ∈ store, op.id = opId →
      updateOperationUndoState opId newState store =
        (true, store.map (fun q =>
          if q.id = opId then { q with undoState := some newState } else q)) ∧
      (store.filter (fun q => q.id = opId)).length = 1) := by
  constructor
  · intro h
    have hany : store.any (fun op => op.id == opId) = false := by
      rw [List.any_eq_false]
      intro x hx
      simp only [beq_iff_eq]
      exact h x hx
    simp [updateOperationUndoState, hany]
  · intro op hmem hid
    have hany : store.any (fun q => q.id == opId) = true :=
      List.any_eq_true.mpr ⟨op, hmem, by simp [hid]⟩
    exact ⟨by simp [updateOperationUndoState, hany],
      filter_id_length_one hnd hmem hid⟩

/-- C8 witness: the update theorem applied to a concrete two-record store,
covering both the matching id and the not-found id. -/
theorem C8_updateState_exact_witness :
    updateOperationUndoState "op_1" "undone" [c8op1, c8op2] =
      (true, [{ c8op1 with undoState := some "undone" }, c8op2]) ∧
    updateOperationUndoState "op_9" "undone" [c8op1, c8op2] =
      (false, [c8op1, c8op2]) := by
  have h1 := (C8_updateState_exact "op_1" "undone" [c8op1, c8op2]
    (by decide)).2 c8op1 (by simp) (by decide)
  have h2 := (C8_updateState_exact "op_9" "undone" [c8op1, c8op2]
    (by decide)).1 (by decide)
  refine ⟨?_, h2⟩
  rw [h1.1]
  decide

/- ### Claim C9 -/

theorem fsRead_cons_ne {t : FileSys} {e : String × String} {q : String}
    (h : (e.1 == q) = false) : fsRead (e :: t) q = fsRead t q := by
  simp [fsRead, List.find?, h]

theorem fsRead_cons_eq {t : FileSys} {e : String × String} {q : String}
    (h : (e.1 == q) = true) : fsRead (e :: t) q = some e.2 := by
  simp [fsRead, List.find?, h]

theorem fsRead_fsWrite_self (b : FileSys) (p v : String) :
    fsRead (fsWrite b p v) p = some v := by
  unfold fsWrite
  rw [fsRead_cons_eq (by simp)]

theorem fsRead_filter_ne {b : FileSys} {p q : String} (h : q ≠ p) :
    fsRead (b.filter (fun e => e.1 ≠ p)) q = fsRead b q := by
  induction b with
  | nil => rfl
  | cons e t ih =>
    by_cases he : e.1 = p
    · have hne : (e.1 == q) = false :=
        beq_eq_false_iff_ne.mpr (fun hc => h (hc ▸ he))
      rw [List.filter_cons_of_neg (by simp [he]), ih, fsRead_cons_ne hne]
    · rw [List.filter_cons_of_pos (by simp [he])]
      rcases hbe : (e.1 == q) with _ | _
      · rw [fsRead_cons_ne hbe, fsRead_cons_ne hbe, ih]
      · rw [fsRead_cons_eq hbe, fsRead_cons_eq hbe]

theorem fsRead_fsWrite_ne {b : FileSys} {p q v : String} (h : q ≠ p) :
    fsRead (fsWrite b p v) q = fsRead b q := by
  unfold fsWrite
  have hne : (((p, v) : String × String).1 == q) = false :=
    beq_eq_false_iff_ne.mpr (fun hc => h hc.symm)
  rw [fsRead_cons_ne hne]
  exact fsRead_filter_ne h

theorem fsRead_foldl_writes_notin :
    ∀ {evs : List (String × String)} {b : FileSys} {nm : String},
      nm ∉ evs.map Prod.fst →
      fsRead (evs.foldl (fun b e => fsWrite b e.1 e.2) b) nm = fsRead b nm := by
  intro evs
  induction evs with
  | nil => intro b nm _; rfl
  | cons e t ih =>
    intro b nm hn
    simp only [List.map_cons, List.mem_cons] at hn
    push_neg at hn
    rw [List.foldl_cons, ih hn.2, fsRead_fsWrite_ne hn.1]

theorem legacyCascade_events (sfx : String)
    (step : Operation → Option String → Option String) :
    ∀ (l : List Operation) (c : Option String) (bk : FileSys)
      (ev : List (String × String)) (att : List Operation),
      (legacyCascade sfx step l c bk ev att).events =
        ev ++ specBackupTrace sfx step l c := by
  intro l
  induction l with
  | nil => intro c bk ev att; simp [legacyCascade, specBackupTrace]
  | cons op rest ih =>
    intro c bk ev att
    cases c with
    | none => simp [legacyCascade, specBackupTrace, ih]
    | some cur => simp [legacyCascade, specBackupTrace, ih]

theorem legacyCascade_backups (sfx : String)
    (step : Operation → Option String → Option String) :
    ∀ (l : List Operation) (c : Option String) (bk : FileSys)
      (ev : List (String × String)) (att : List Operation),
      (legacyCascade sfx step l c bk ev att).backups =
        (specBackupTrace sfx step l c).foldl
          (fun b e => fsWrite b e.1 e.2) bk := by
  intro l
  induction l with
  | nil => intro c bk ev att; simp [legacyCascade, specBackupTrace]
  | cons op rest ih =>
    intro c bk ev att
    cases c with
    | none => simp [legacyCascade, specBackupTrace, ih]
    | some cur => simp [legacyCascade, specBackupTrace, ih]

theorem specBackupTrace_names_sublist (sfx : String)
    (step : Operation → Option String → Option String) :
    ∀ (l : List Operation) (c : Option String),
      List.Sublist ((specBackupTrace sfx step l c).map Prod.fst)
        (l.map (fun op => op.id ++ sfx)) := by
  intro l
  induction l with
  | nil => intro c; simp [specBackupTrace]
  | cons op rest ih =>
    intro c
    cases c with
    | some cur =>
      simp only [specBackupTrace, List.map_cons]
      exact List.Sublist.cons₂ _ (ih _)
    | none =>
      simp only [specBackupTrace, List.map_cons]
      exact List.Sublist.cons _ (ih _)

theorem processed_ids_nodup {ops : List Operation} {k : Nat}
    (hnd : (ops.map (fun op => op.id)).Nodup) :
    (((ops.drop k).reverse).map (fun op => op.id)).Nodup := by
  rw [List.map_reverse, List.nodup_reverse]
  exact List.Nodup.sublist (List.Sublist.map _ (List.drop_sublist k ops)) hnd

theorem undoSuffix_inj {a b : String}
    (hab : a ++ "-undo.bak" = b ++ "-undo.bak") : a = b := by
  have h2 := congrArg String.data hab
  rw [String.data_append, String.data_append] at h2
  exact String.ext (List.append_cancel_right h2)

/-- C9 (amended): in the legacy index-based cascades the backup events are
exactly the trace the spec prescribes — before each step whose file
currently exists, exactly one snapshot of the file's current content is
written under `<operationId>-undo.bak` (undo) or `<operationId>-redo.bak`
(redo), and nothing is written for an absent file; the resulting backup
directory is exactly those writes applied in order; for unique ids each
(operation, direction) pair gets at most one snapshot per cascade; and a
later cascade over the same log reuses the same name for its newest
operation, so its snapshot replaces whatever an earlier cascade stored
there (cross-cascade non-overwriting does not hold).  The enhanced engine
does not use this scheme at all — its `createBackup` writes
`<basename>.<timestamp>.bak` (see the counterexample). -/
theorem C9_backup_snapshots (ops : List Operation) (k : Nat) (c : Option String)
    (bk : FileSys) (hk : k < ops.length) :
    (undoOperationIndex ops k c bk).events =
      specBackupTrace "-undo.bak" legacyUndoStep ((ops.drop k).reverse) c ∧
    (redoOperationIndex ops k c bk).events =
      specBackupTrace "-redo.bak" legacyRedoStep (ops.drop k) c ∧
    (undoOperationIndex ops k c bk).backups =
      ((undoOperationIndex ops k c bk).events).foldl
        (fun b e => fsWrite b e.1 e.2) bk ∧
    ((ops.map (fun op => op.id)).Nodup →
      ((undoOperationIndex ops k c bk).events.map Prod.fst).Nodup) ∧
    (∀ (cur2 : String), (ops.map (fun op => op.id)).Nodup →
      fsRead (undoOperationIndex ops k (some cur2)
          ((undoOperationIndex ops k c bk).backups)).backups
        ((((ops.drop k).reverse).headD default).id ++ "-undo.bak") = some cur2) := by
  have hev : (undoOperationIndex ops k c bk).events =
      specBackupTrace "-undo.bak" legacyUndoStep ((ops.drop k).reverse) c := by
    unfold undoOperationIndex
    rw [if_pos hk, legacyCascade_events]
    rfl
  have hne : ((ops.drop k).reverse : List Operation) ≠ [] := by
    intro hcon
    have hlen := congrArg List.length hcon
    simp only [List.length_reverse, List.length_drop, List.length_nil] at hlen
    omega
  obtain ⟨p0, rest, hpr⟩ := List.exists_cons_of_ne_nil hne
  refine ⟨hev, ?_, ?_, ?_, ?_⟩
  · unfold redoOperationIndex
    rw [if_pos hk, legacyCascade_events]
    rfl
  · rw [hev]
    unfold undoOperationIndex
    rw [if_pos hk, legacyCascade_backups]
  · intro hnd
    rw [hev]
    refine List.Nodup.sublist (specBackupTrace_names_sublist _ _ _ _) ?_
    have hmm : (((ops.drop k).reverse).map (fun op => op.id ++ "-undo.bak")) =
        ((((ops.drop k).reverse).map (fun op => op.id)).map
          (fun i => i ++ "-undo.bak")) := by
      rw [List.map_map]
      rfl
    rw [hmm]
    exact List.Nodup.map (fun a b => undoSuffix_inj) (processed_ids_nodup hnd)
  · intro cur2 hnd
    have hb2 : (undoOperationIndex ops k (some cur2)
          ((undoOperationIndex ops k c bk).backups)).backups =
        (specBackupTrace "-undo.bak" legacyUndoStep ((ops.drop k).reverse)
            (some cur2)).foldl (fun b e => fsWrite b e.1 e.2)
          ((undoOperationIndex ops k c bk).backups) := by
      unfold undoOperationIndex
      rw [if_pos hk, legacyCascade_backups]
    rw [hb2, hpr]
    simp only [specBackupTrace, List.headD_cons, List.foldl_cons]
    have hpn := processed_ids_nodup (k := k) hnd
    rw [hpr] at hpn
    simp only [List.map_cons, List.nodup_cons] at hpn
    have hnotin : (p0.id ++ "-undo.bak") ∉
        ((specBackupTrace "-undo.bak" legacyUndoStep rest
          (legacyUndoStep p0 (some cur2))).map Prod.fst) := by
      intro hin
      have hin2 := (specBackupTrace_names_sublist "-undo.bak" legacyUndoStep
        rest (legacyUndoStep p0 (some cur2))).subset hin
      obtain ⟨r, hr, hreq⟩ := List.mem_map.mp hin2
      have hrid : r.id = p0.id := undoSuffix_inj hreq
      exact hpn.1 (hrid ▸ List.mem_map_of_mem _ hr)
    rw [fsRead_foldl_writes_notin hnotin, fsRead_fsWrite_self]

/-- C9 witness: the snapshot theorem applied to a concrete one-operation
legacy log, including the cross-cascade overwrite at a second content. -/
theorem C9_backup_snapshots_witness :
    (undoOperationIndex [c9op] 0 (some "x") []).events =
      specBackupTrace "-undo.bak" legacyUndoStep
        ((([c9op] : List Operation).drop 0).reverse) (some "x") ∧
    fsRead (undoOperationIndex [c9op] 0 (some "y")
        ((undoOperationIndex [c9op] 0 (some "x") []).backups)).backups
      ((((([c9op] : List Operation).drop 0).reverse).headD default).id ++
        "-undo.bak") = some "y" := by
  have h := C9_backup_snapshots [c9op] 0 (some "x") [] (by decide)
  exact ⟨h.1, h.2.2.2.2 "y" (by decide)⟩

/-- C9 counterexample: an enhanced undo step on an existing file writes its
pre-mutation snapshot under `f.txt.T.bak` — the basename-plus-timestamp
scheme of `createBackup` — and nothing is written under `op_1-undo.bak`,
refuting the claim that every destructive undo apply step snapshots under
`<operationId>-<undo|redo>.bak`. -/
theorem C9_counterexample :
    undoOperation "T" "op_1" c9st =
      .ok ({ store := [setUndoState "undone" c9op], fs := [("d/f.txt", "old")],
             backups := [("f.txt.T.bak", "new")], writes := ["op_1"] },
        c9op, []) ∧
    fsRead [("f.txt.T.bak", "new")] (c9op.id ++ "-undo.bak") = none ∧
    fsRead [("f.txt.T.bak", "new")] "f.txt.T.bak" = some "new" :=
  ⟨rfl, by decide, by decide⟩

/- ### Claim C10 -/

/-- C10: a record with no `undoState` field at all is treated as ACTIVE by
the active view: it is returned by `getActiveOperations`, and when its
timestamp is strictly after a target's it belongs to `getOperationsAfter`
(the cascading-undo set); meanwhile `getUndoneOperations` — the redo view —
contains exactly the records whose `undoState` equals `'undone'`, so a
record with a missing `undoState` is never redo-eligible through it. -/
theorem C10_missing_state_is_active (store : List Operation) (op : Operation)
    (hmem : op ∈ store) (hnone : op.undoState = none) :
    op ∈ getActiveOperations store ∧
    (∀ target : Operation, target.timestamp < op.timestamp →
      op ∈ getOperationsAfter target store) ∧
    (∀ q, q ∈ getUndoneOperations store ↔
      (q ∈ store ∧ q.undoState = some "undone")) := by
  refine ⟨?_, ?_, ?_⟩
  · simp [getActiveOperations, List.mem_filter, hmem, strFalsy, hnone]
  · intro target hts
    unfold getOperationsAfter
    rw [mem_sortByTs, List.mem_filter]
    constructor
    · simp [getActiveOperations, List.mem_filter, hmem, strFalsy, hnone]
    · simpa using hts
  · intro q
    simp [getUndoneOperations, List.mem_filter]

/-- C10 witness: the view theorem applied to a concrete three-record store
containing an active record, a record with no `undoState`, and an undone
record. -/
theorem C10_missing_state_is_active_witness :
    c10legacy ∈ getActiveOperations [c10target, c10legacy, c10undone] ∧
    c10legacy ∈ getOperationsAfter c10target [c10target, c10legacy, c10undone] ∧
    c10undone ∈ getUndoneOperations [c10target, c10legacy, c10undone] ∧
    c10legacy ∉ getUndoneOperations [c10target, c10legacy, c10undone] := by
  have h := C10_missing_state_is_active [c10target, c10legacy, c10undone]
    c10legacy (by decide) (by decide)
  refine ⟨h.1, h.2.1 c10target (by decide), ?_, ?_⟩
  · exact (h.2.2 c10undone).mpr ⟨by decide, by decide⟩
  · intro hcon
    exact absurd ((h.2.2 c10legacy).mp hcon).2 (by decide)
